import Mathlib

/-!
Verification development for the Strahlkorper surface representation
(`src/ApparentHorizons/Strahlkorper.hpp`): a star-shaped surface expanded in
spherical harmonics, storing a packed real coefficient vector, a center, and a
resolution `(l_max, m_max)`.

The header under `src/` provides the class declarations, the default member
initializers, the packing-law documentation, and the inline `operator==`.
The member-function bodies (the `.cpp` translation unit) and the
`YlmSpherepack` transform engine are not part of the sampled sources, so
those parts are modelled from the specification, as marked on each
definition.
-/

namespace Spectre

/-- Modelled from the spec: the transform engine owns the coefficient-vector
length formula `physical_size(l_max, m_max)`; the engine's source is not in
the sample, so we fix the one consistent indexing scheme the spec asks an
implementer to choose: slots are ordered by degree `l = 0..l_max`, and inside
each degree by order `m = -min(l, m_max) .. min(l, m_max)`.
`numCoefsBelow m_max l` counts the slots of all degrees below `l`. -/
def numCoefsBelow (m_max : ℕ) : ℕ → ℕ
  | 0 => 0
  | l + 1 => numCoefsBelow m_max l + (2 * min l m_max + 1)

/-- Modelled from the spec: required coefficient-vector length for a
resolution, i.e. the number of stored `(l, m)` slots. -/
def physical_size (l_max m_max : ℕ) : ℕ :=
  numCoefsBelow m_max (l_max + 1)

/-- Modelled from the spec: the engine's `(l, m) -> flat index` map for the
indexing scheme fixed above.  The monopole `(0,0)` sits at index `0`. -/
def coefIndex (m_max l : ℕ) (m : ℤ) : ℕ :=
  numCoefsBelow m_max l + (m + (min l m_max : ℤ)).toNat

/-- The data model of the C++ class `Strahlkorper<Frame>`: resolution
`l_max_, m_max_`, the expansion center `center_`, and the packed real
coefficient vector `strahlkorper_coefs_` (header lines 120-125).  The frame
is a compile-time phantom tag and carries no data. -/
structure Strahlkorper where
  l_max : ℕ
  m_max : ℕ
  center : ℝ × ℝ × ℝ
  coefs : List ℝ

/-- Packed coefficient stored for the slot `(l, m)`; reads the flat vector
at the index the engine's indexing scheme assigns to `(l, m)`. -/
def Strahlkorper.coefAt (s : Strahlkorper) (l : ℕ) (m : ℤ) : ℝ :=
  s.coefs.getD (coefIndex s.m_max l m) 0

/-- Modelled from the spec: `average_radius()` (member body not in the
sample) returns the packed `(0,0)` coefficient divided by `sqrt(4 pi)`. -/
noncomputable def Strahlkorper.average_radius (s : Strahlkorper) : ℝ :=
  s.coefAt 0 0 / Real.sqrt (4 * Real.pi)

/-- Modelled from the spec: the opaque `SpectralTransformEngine`
(`YlmSpherepack`, not in the sample).  It supplies a real basis function per
`(l, m)` slot for inverse evaluation, the collocation-grid point count, and
the forward transform.  Its contract, stated by the spec, pins down only that
the forward transform produces vectors of length `physical_size` and that the
monopole basis function is the constant `1 / sqrt(4 pi)` (forced by the
sphere-exactness property together with the monopole packing constant
`radius * sqrt(4 pi)` and the average-radius formula being its inverse). -/
structure SpherepackEngine where
  basis : ℕ → ℤ → ℝ → ℝ → ℝ
  grid_size : ℕ → ℕ → ℕ
  forward : ℕ → ℕ → List ℝ → List ℝ
  forward_size : ∀ lm mm samples, (forward lm mm samples).length = physical_size lm mm
  monopole_basis : ∀ θ φ, basis 0 0 θ φ = 1 / Real.sqrt (4 * Real.pi)

/-- Modelled from the spec: `radius(theta, phi)` (member body not in the
sample) evaluates the full expansion at one angular point through the
engine's inverse-evaluation primitive: the sum over all stored `(l, m)`
slots of the packed coefficient times the engine's basis function. -/
noncomputable def Strahlkorper.radius (e : SpherepackEngine) (s : Strahlkorper)
    (θ φ : ℝ) : ℝ :=
  ∑ l ∈ Finset.range (s.l_max + 1),
    ∑ m ∈ Finset.Icc (-(min l s.m_max : ℤ)) (min l s.m_max),
      s.coefAt l m * e.basis l m θ φ

/-- Modelled from the spec: `point_is_contained(x)` (member body not in the
sample): displacement `d = x - center()`, `r = |d|`, angles
`theta = acos(d_z / r)` and `phi = atan2(d_y, d_x)` (realized as the complex
argument of `d_x + i d_y`); the point is contained when `r <= radius(theta,
phi)`, with the degenerate case `r = 0` defined as contained. -/
def Strahlkorper.point_is_contained (e : SpherepackEngine) (s : Strahlkorper)
    (x : ℝ × ℝ × ℝ) : Prop :=
  let dx := x.1 - s.center.1
  let dy := x.2.1 - s.center.2.1
  let dz := x.2.2 - s.center.2.2
  let r := Real.sqrt (dx ^ 2 + dy ^ 2 + dz ^ 2)
  r = 0 ∨ r ≤ s.radius e (Real.arccos (dz / r)) (Complex.arg ⟨dx, dy⟩)

/-- Error kinds of the construction preconditions (spec section 7). -/
inductive ConstructionError where
  | InvalidResolution
  | SampleCountMismatch
  | SizeMismatch
deriving DecidableEq

/-- Modelled from the spec: coefficient vector built by the sphere
constructor — all zeros except the monopole slot (flat index 0), which holds
`radius * sqrt(4 pi)`. -/
noncomputable def sphereCoefs (lm mm : ℕ) (radius : ℝ) : List ℝ :=
  (List.replicate (physical_size lm mm) (0 : ℝ)).set 0 (radius * Real.sqrt (4 * Real.pi))

/-- Modelled from the spec: the sphere constructor
`Strahlkorper(l_max, m_max, radius, center)` (body not in the sample).
Fails fast with `InvalidResolution` when `m_max > l_max`. -/
noncomputable def sphereStrahlkorper (lm mm : ℕ) (radius : ℝ)
    (center : ℝ × ℝ × ℝ) : Except ConstructionError Strahlkorper :=
  if mm ≤ lm then .ok ⟨lm, mm, center, sphereCoefs lm mm radius⟩
  else .error .InvalidResolution

/-- Modelled from the spec: the from-samples constructor
`Strahlkorper(l_max, m_max, radius_at_collocation_points, center)` (body not
in the sample).  Applies the engine's forward transform; fails with
`SampleCountMismatch` when the sample count differs from the grid size. -/
def fromSamples (e : SpherepackEngine) (lm mm : ℕ) (samples : List ℝ)
    (center : ℝ × ℝ × ℝ) : Except ConstructionError Strahlkorper :=
  if samples.length = e.grid_size lm mm then
    .ok ⟨lm, mm, center, e.forward lm mm samples⟩
  else .error .SampleCountMismatch

/-- One degree-`l` row of a coefficient vector: the values of `f l m` for
`m = -min(l, m_max) .. min(l, m_max)` in slot order. -/
def slotRow (f : ℕ → ℤ → ℝ) (mm l : ℕ) : List ℝ :=
  (List.range (2 * min l mm + 1)).map fun (j : ℕ) => f l ((j : ℤ) - (min l mm : ℤ))

/-- Coefficient vector whose slot `(l, m)` holds `f l m`, for all degrees
below `n`, laid out in the indexing scheme fixed above. -/
def buildCoefs (f : ℕ → ℤ → ℝ) (mm : ℕ) : ℕ → List ℝ
  | 0 => []
  | n + 1 => buildCoefs f mm n ++ slotRow f mm n

/-- Modelled from the spec: the resample constructor
`Strahlkorper(l_max, m_max, another_strahlkorper)` (body not in the sample):
each slot valid at the new resolution receives the source's value when the
slot also exists in the source (truncation / copying) and `0` otherwise
(zero-padding); the center is copied unchanged. -/
def resampleSurface (lm mm : ℕ) (s : Strahlkorper) : Strahlkorper :=
  ⟨lm, mm, s.center,
    buildCoefs
      (fun l m => if l ≤ s.l_max ∧ m.natAbs ≤ min l s.m_max then s.coefAt l m else 0)
      mm (lm + 1)⟩

/-- Modelled from the spec: the coefficient-substitution constructor
`Strahlkorper(coefs, another_strahlkorper)` (body not in the sample): copies
`l_max`, `m_max`, `center` from the source and installs the supplied vector
verbatim; fails with `SizeMismatch` on a wrong-length vector.  The move
variant is functionally identical and shares this model. -/
def substituteCoefs (cs : List ℝ) (s : Strahlkorper) : Except ConstructionError Strahlkorper :=
  if cs.length = physical_size s.l_max s.m_max then .ok ⟨s.l_max, s.m_max, s.center, cs⟩
  else .error .SizeMismatch

/-- The default constructor, from the header's default member initializers
(lines 121-124): `l_max = m_max = 2`, center at the origin, and a zero
coefficient vector of length `physical_size(2, 2)`. -/
def defaultStrahlkorper : Strahlkorper :=
  ⟨2, 2, (0, 0, 0), List.replicate (physical_size 2 2) 0⟩

/-- Modelled from the spec: in-place mutation of one coefficient-vector entry
through the mutable `coefficients()` accessor — the only mutation path the
class exposes; as a functional embedding, it returns the post-state. -/
def writeCoef (s : Strahlkorper) (i : ℕ) (v : ℝ) : Strahlkorper :=
  ⟨s.l_max, s.m_max, s.center, s.coefs.set i v⟩

/-- The inline `operator==` from the header (lines 127-133): exact equality
of `l_max`, `m_max`, `center`, and the coefficient vectors. -/
def strahlkorperEq (a b : Strahlkorper) : Prop :=
  a.l_max = b.l_max ∧ a.m_max = b.m_max ∧ a.center = b.center ∧ a.coefs = b.coefs

/-- The packing law documented in the header (lines 68-74): the stored real
for slot `(l, m)` is `(-1)^m sqrt(2/pi) Re(F^lm)` for `m >= 0` and
`(-1)^m sqrt(2/pi) Im(F^lm)` for `m < 0`.  The degree `l` is carried but
unused by the formula. -/
noncomputable def pack (_l : ℕ) (m : ℤ) (v : ℂ) : ℝ :=
  (-1 : ℝ) ^ m * Real.sqrt (2 / Real.pi) * (if 0 ≤ m then v.re else v.im)

/-- The conjugate-symmetry (reality) relation of the header (line 64):
`F^(l,-m) = (-1)^m conj(F^(l,m))`. -/
def realityPartner (m : ℕ) (v : ℂ) : ℂ :=
  (-1 : ℂ) ^ m * (starRingEnd ℂ) v

/-- Modelled from the spec: the codec's `unpack` for an `m = 0` slot, where
the reality constraint forces the coefficient real: divide the stored value
by `sqrt(2/pi)`. -/
noncomputable def unpack0 (r : ℝ) : ℂ :=
  ((r / Real.sqrt (2 / Real.pi) : ℝ) : ℂ)

/-- Modelled from the spec: recovery of the full complex coefficient `F^lm`
(`m > 0`) from the PAIR of stored reals — the `(l, m)` slot and the
`(l, -m)` slot (the latter packed from the reality partner). -/
noncomputable def unpackPair (m : ℕ) (p : ℝ × ℝ) : ℂ :=
  ⟨(-1 : ℝ) ^ m * p.1 / Real.sqrt (2 / Real.pi), -p.2 / Real.sqrt (2 / Real.pi)⟩

/-- A concrete transform engine satisfying the spec's engine contract, used
to instantiate engine-quantified statements on concrete inputs. -/
noncomputable def trivEngine : SpherepackEngine where
  basis := fun l m _ _ => if l = 0 ∧ m = 0 then 1 / Real.sqrt (4 * Real.pi) else 0
  grid_size := fun lm mm => (lm + 1) * (2 * mm + 1)
  forward := fun lm mm _ => List.replicate (physical_size lm mm) 0
  forward_size := by intro lm mm samples; simp
  monopole_basis := by intro θ φ; simp

/-! Index-scheme lemmas. -/

theorem numCoefsBelow_succ (mm l : ℕ) :
    numCoefsBelow mm (l + 1) = numCoefsBelow mm l + (2 * min l mm + 1) := rfl

theorem numCoefsBelow_mono (mm : ℕ) {a b : ℕ} (h : a ≤ b) :
    numCoefsBelow mm a ≤ numCoefsBelow mm b := by
  induction b with
  | zero => simp [Nat.le_zero.mp h]
  | succ n ih =>
    rcases Nat.lt_or_ge a (n + 1) with hlt | hge
    · exact le_trans (ih (Nat.lt_succ_iff.mp hlt)) (Nat.le_add_right _ _)
    · have : a = n + 1 := le_antisymm h hge
      simp [this]

theorem numCoefsBelow_pos (mm n : ℕ) : 0 < numCoefsBelow mm (n + 1) := by
  rw [numCoefsBelow_succ]; omega

theorem physical_size_pos (lm mm : ℕ) : 0 < physical_size lm mm :=
  numCoefsBelow_pos mm lm

theorem natAbs_le_iff_mem (m : ℤ) (k : ℕ) :
    m.natAbs ≤ k ↔ -(k : ℤ) ≤ m ∧ m ≤ k := by omega

theorem coefIndex_eq (mm l : ℕ) (m : ℤ) (hm : m.natAbs ≤ min l mm) :
    coefIndex mm l m = numCoefsBelow mm l + (m + (min l mm : ℤ)).toNat ∧
      (m + (min l mm : ℤ)).toNat < 2 * min l mm + 1 := by
  refine ⟨rfl, ?_⟩
  omega

theorem coefIndex_zero (mm : ℕ) : coefIndex mm 0 0 = 0 := by
  simp [coefIndex, numCoefsBelow]

theorem coefIndex_ne_zero (mm l : ℕ) (m : ℤ) (hm : m.natAbs ≤ min l mm)
    (hne : ¬(l = 0 ∧ m = 0)) : coefIndex mm l m ≠ 0 := by
  rcases Nat.eq_zero_or_pos l with hl | hl
  · subst hl
    simp only [Nat.zero_min, Nat.le_zero, Int.natAbs_eq_zero] at hm
    exact absurd ⟨rfl, hm⟩ hne
  · have h1 : 1 ≤ numCoefsBelow mm l := by
      have := numCoefsBelow_mono mm hl
      simpa [numCoefsBelow] using this
    unfold coefIndex
    omega

theorem coefIndex_lt (lm mm l : ℕ) (m : ℤ) (hl : l ≤ lm) (hm : m.natAbs ≤ min l mm) :
    coefIndex mm l m < physical_size lm mm := by
  have hlt : coefIndex mm l m < numCoefsBelow mm (l + 1) := by
    rw [numCoefsBelow_succ]; unfold coefIndex; omega
  exact lt_of_lt_of_le hlt (numCoefsBelow_mono mm (by omega))

/-! List lemmas for the coefficient vectors. -/

theorem getD_replicate_zero (n i : ℕ) : (List.replicate n (0 : ℝ)).getD i 0 = 0 := by
  rcases Nat.lt_or_ge i n with h | h
  · rw [List.getD_eq_getElem _ _ (by simpa using h)]
    simp
  · exact List.getD_eq_default _ _ (by simpa using h)

theorem sphereCoefs_getD (lm mm : ℕ) (radius : ℝ) (i : ℕ) :
    (sphereCoefs lm mm radius).getD i 0 =
      if i = 0 then radius * Real.sqrt (4 * Real.pi) else 0 := by
  unfold sphereCoefs
  rcases Nat.eq_zero_or_pos i with hi | hi
  · subst hi
    rw [List.getD_eq_getElem _ _ (by simp [physical_size_pos lm mm])]
    simp
  · have hne : i ≠ 0 := Nat.pos_iff_ne_zero.mp hi
    simp only [hne, if_false]
    rcases Nat.lt_or_ge i (physical_size lm mm) with h | h
    · rw [List.getD_eq_getElem _ _ (by simpa using h)]
      rw [List.getElem_set_ne (Ne.symm hne)]
      simp
    · exact List.getD_eq_default _ _ (by simpa using h)

theorem sphereCoefs_length (lm mm : ℕ) (radius : ℝ) :
    (sphereCoefs lm mm radius).length = physical_size lm mm := by
  simp [sphereCoefs]

theorem slotRow_length (f : ℕ → ℤ → ℝ) (mm l : ℕ) :
    (slotRow f mm l).length = 2 * min l mm + 1 := by
  simp [slotRow]

theorem buildCoefs_length (f : ℕ → ℤ → ℝ) (mm n : ℕ) :
    (buildCoefs f mm n).length = numCoefsBelow mm n := by
  induction n with
  | zero => rfl
  | succ k ih => simp [buildCoefs, numCoefsBelow_succ, ih, slotRow_length]

theorem slotRow_getD (f : ℕ → ℤ → ℝ) (mm l j : ℕ) (hj : j < 2 * min l mm + 1) :
    (slotRow f mm l).getD j 0 = f l ((j : ℤ) - (min l mm : ℤ)) := by
  unfold slotRow
  rw [List.getD_eq_getElem _ _ (by simpa using hj)]
  simp

theorem buildCoefs_getD (f : ℕ → ℤ → ℝ) (mm n l j : ℕ) (hl : l < n)
    (hj : j < 2 * min l mm + 1) :
    (buildCoefs f mm n).getD (numCoefsBelow mm l + j) 0 =
      f l ((j : ℤ) - (min l mm : ℤ)) := by
  induction n with
  | zero => omega
  | succ k ih =>
    rcases Nat.lt_or_ge l k with hlk | hge
    · have hidx : numCoefsBelow mm l + j < (buildCoefs f mm k).length := by
        rw [buildCoefs_length]
        have : numCoefsBelow mm (l + 1) ≤ numCoefsBelow mm k :=
          numCoefsBelow_mono mm hlk
        rw [numCoefsBelow_succ] at this
        omega
      rw [buildCoefs, List.getD_append _ _ _ _ hidx]
      exact ih hlk
    · have hl' : l = k := by omega
      subst hl'
      have hlen : (buildCoefs f mm l).length = numCoefsBelow mm l :=
        buildCoefs_length f mm l
      rw [buildCoefs, List.getD_append_right _ _ _ _ (by omega)]
      rw [hlen, Nat.add_sub_cancel_left]
      exact slotRow_getD f mm l j hj

theorem buildCoefs_coefAt (f : ℕ → ℤ → ℝ) (lm mm l : ℕ) (m : ℤ) (hl : l ≤ lm)
    (hm : m.natAbs ≤ min l mm) :
    (buildCoefs f mm (lm + 1)).getD (coefIndex mm l m) 0 = f l m := by
  obtain ⟨hidx, hj⟩ := coefIndex_eq mm l m hm
  rw [hidx, buildCoefs_getD f mm (lm + 1) l _ (by omega) hj]
  congr 1
  omega

theorem buildCoefs_congr (f g : ℕ → ℤ → ℝ) (mm n : ℕ)
    (h : ∀ l m, l < n → m.natAbs ≤ min l mm → f l m = g l m) :
    buildCoefs f mm n = buildCoefs g mm n := by
  induction n with
  | zero => rfl
  | succ k ih =>
    rw [buildCoefs, buildCoefs, ih (fun l m hl hm => h l m (by omega) hm)]
    congr 1
    unfold slotRow
    apply List.map_congr_left
    intro j hj
    rw [List.mem_range] at hj
    refine h k _ (by omega) ?_
    omega

theorem decode_index (mm n : ℕ) : ∀ p < numCoefsBelow mm n,
    ∃ l j, l < n ∧ j < 2 * min l mm + 1 ∧ p = numCoefsBelow mm l + j := by
  induction n with
  | zero => intro p hp; simp [numCoefsBelow] at hp
  | succ k ih =>
    intro p hp
    rcases Nat.lt_or_ge p (numCoefsBelow mm k) with h | h
    · obtain ⟨l, j, h1, h2, h3⟩ := ih p h
      exact ⟨l, j, by omega, h2, h3⟩
    · refine ⟨k, p - numCoefsBelow mm k, by omega, ?_, by omega⟩
      rw [numCoefsBelow_succ] at hp
      omega

theorem buildCoefs_self (s : Strahlkorper)
    (hlen : s.coefs.length = physical_size s.l_max s.m_max) :
    buildCoefs s.coefAt s.m_max (s.l_max + 1) = s.coefs := by
  apply List.ext_getElem
  · rw [buildCoefs_length, hlen]; rfl
  · intro p h1 h2
    obtain ⟨l, j, hl, hj, rfl⟩ := by
      refine decode_index s.m_max (s.l_max + 1) p ?_
      rw [buildCoefs_length] at h1
      exact h1
    rw [← List.getD_eq_getElem _ 0 h1, ← List.getD_eq_getElem _ 0 h2]
    rw [buildCoefs_getD _ _ _ _ _ hl hj]
    unfold Strahlkorper.coefAt coefIndex
    congr 1
    omega

/-! Sphere-surface and resampling helpers. -/

theorem sqrt_four_pi_ne_zero : Real.sqrt (4 * Real.pi) ≠ 0 := by
  rw [Real.sqrt_ne_zero']
  positivity

theorem Strahlkorper.ext_fields (a b : Strahlkorper) (h1 : a.l_max = b.l_max)
    (h2 : a.m_max = b.m_max) (h3 : a.center = b.center) (h4 : a.coefs = b.coefs) :
    a = b := by
  cases a; cases b; simp_all

theorem sphere_coefAt (lm mm : ℕ) (R : ℝ) (c : ℝ × ℝ × ℝ) (l : ℕ) (m : ℤ) :
    Strahlkorper.coefAt ⟨lm, mm, c, sphereCoefs lm mm R⟩ l m =
      if coefIndex mm l m = 0 then R * Real.sqrt (4 * Real.pi) else 0 :=
  sphereCoefs_getD lm mm R _

theorem sphere_radius_eval (e : SpherepackEngine) (lm mm : ℕ) (R : ℝ)
    (c : ℝ × ℝ × ℝ) (θ φ : ℝ) :
    Strahlkorper.radius e ⟨lm, mm, c, sphereCoefs lm mm R⟩ θ φ = R := by
  change (∑ l ∈ Finset.range (lm + 1),
      ∑ m ∈ Finset.Icc (-((l : ℤ) ⊓ (mm : ℤ))) ((l : ℤ) ⊓ (mm : ℤ)),
        Strahlkorper.coefAt ⟨lm, mm, c, sphereCoefs lm mm R⟩ l m * e.basis l m θ φ) = R
  refine (Finset.sum_eq_single 0 ?_ ?_).trans ?_
  · intro l hl hlne
    apply Finset.sum_eq_zero
    intro m hm
    rw [Finset.mem_Icc] at hm
    have hma : m.natAbs ≤ min l mm := by omega
    rw [sphere_coefAt, if_neg, zero_mul]
    exact coefIndex_ne_zero mm l m hma fun h => hlne h.1
  · intro h
    exact absurd (Finset.mem_range.mpr (Nat.succ_pos _)) h
  · have h0 : (((0 : ℕ) : ℤ) ⊓ (mm : ℤ)) = 0 := by omega
    rw [h0, neg_zero, Finset.Icc_self, Finset.sum_singleton]
    rw [sphere_coefAt, if_pos (coefIndex_zero mm), e.monopole_basis]
    rw [mul_one_div, mul_div_assoc, div_self sqrt_four_pi_ne_zero, mul_one]

theorem resample_coefs_length (lm mm : ℕ) (s : Strahlkorper) :
    (resampleSurface lm mm s).coefs.length = physical_size lm mm :=
  buildCoefs_length _ mm (lm + 1)

theorem resample_coefAt (lm mm : ℕ) (s : Strahlkorper) (l : ℕ) (m : ℤ)
    (hl : l ≤ lm) (hm : m.natAbs ≤ min l mm) :
    (resampleSurface lm mm s).coefAt l m =
      if l ≤ s.l_max ∧ m.natAbs ≤ min l s.m_max then s.coefAt l m else 0 :=
  buildCoefs_coefAt _ lm mm l m hl hm

theorem resample_radius_eq (e : SpherepackEngine) (lm mm : ℕ) (s : Strahlkorper)
    (hL : s.l_max ≤ lm) (hM : s.m_max ≤ mm) (θ φ : ℝ) :
    (resampleSurface lm mm s).radius e θ φ = s.radius e θ φ := by
  change (∑ l ∈ Finset.range (lm + 1),
      ∑ m ∈ Finset.Icc (-((l : ℤ) ⊓ (mm : ℤ))) ((l : ℤ) ⊓ (mm : ℤ)),
        (resampleSurface lm mm s).coefAt l m * e.basis l m θ φ) =
    ∑ l ∈ Finset.range (s.l_max + 1),
      ∑ m ∈ Finset.Icc (-((l : ℤ) ⊓ (s.m_max : ℤ))) ((l : ℤ) ⊓ (s.m_max : ℤ)),
        s.coefAt l m * e.basis l m θ φ
  have hsub : Finset.range (s.l_max + 1) ⊆ Finset.range (lm + 1) :=
    Finset.range_subset.mpr (by omega)
  refine Eq.trans (Finset.sum_subset hsub ?_).symm (Finset.sum_congr rfl ?_)
  · intro l hmem hnot
    rw [Finset.mem_range] at hmem
    rw [Finset.mem_range] at hnot
    apply Finset.sum_eq_zero
    intro m hm
    rw [Finset.mem_Icc] at hm
    have hma : m.natAbs ≤ min l mm := by omega
    rw [resample_coefAt lm mm s l m (by omega) hma, if_neg, zero_mul]
    rintro ⟨hle, -⟩
    omega
  · intro l hl
    rw [Finset.mem_range] at hl
    have hIccSub :
        Finset.Icc (-((l : ℤ) ⊓ (s.m_max : ℤ))) ((l : ℤ) ⊓ (s.m_max : ℤ)) ⊆
          Finset.Icc (-((l : ℤ) ⊓ (mm : ℤ))) ((l : ℤ) ⊓ (mm : ℤ)) := by
      apply Finset.Icc_subset_Icc <;> omega
    refine Eq.trans (Finset.sum_subset hIccSub ?_).symm (Finset.sum_congr rfl ?_)
    · intro m hmem hnot
      rw [Finset.mem_Icc] at hmem
      rw [Finset.mem_Icc] at hnot
      push_neg at hnot
      have hma : m.natAbs ≤ min l mm := by omega
      rw [resample_coefAt lm mm s l m (by omega) hma, if_neg, zero_mul]
      rintro ⟨-, habs⟩
      omega
    · intro m hm
      rw [Finset.mem_Icc] at hm
      have hma : m.natAbs ≤ min l mm := by omega
      rw [resample_coefAt lm mm s l m (by omega) hma, if_pos ⟨by omega, by omega⟩]

theorem resample_roundtrip (lm mm : ℕ) (s : Strahlkorper)
    (hlen : s.coefs.length = physical_size s.l_max s.m_max)
    (hL : s.l_max ≤ lm) (hM : s.m_max ≤ mm) :
    resampleSurface s.l_max s.m_max (resampleSurface lm mm s) = s := by
  apply Strahlkorper.ext_fields
  · rfl
  · rfl
  · rfl
  show buildCoefs _ s.m_max (s.l_max + 1) = s.coefs
  refine Eq.trans (buildCoefs_congr _ s.coefAt s.m_max (s.l_max + 1) ?_)
    (buildCoefs_self s hlen)
  intro l m hl hm
  have hcond : l ≤ (resampleSurface lm mm s).l_max ∧
      m.natAbs ≤ min l (resampleSurface lm mm s).m_max :=
    ⟨show l ≤ lm by omega, show m.natAbs ≤ min l mm by omega⟩
  rw [if_pos hcond]
  rw [resample_coefAt lm mm s l m (by omega) (show m.natAbs ≤ min l mm by omega)]
  rw [if_pos ⟨by omega, hm⟩]

/-! Claim theorems. -/

/-- C1: for every radius > 0, every center, and every resolution with
m_max ≤ l_max, the sphere constructor produces a surface whose coefficient
vector is zero everywhere except the monopole slot (l,m)=(0,0) (flat index
0), whose packed value is radius·√(4π), so that average_radius() returns
radius and radius(θ,φ) returns radius at every angle. -/
theorem sphere_constructor_exact (lm mm : ℕ) (R : ℝ) (c : ℝ × ℝ × ℝ)
    (hres : mm ≤ lm) (_hR : 0 < R) :
    sphereStrahlkorper lm mm R c = .ok ⟨lm, mm, c, sphereCoefs lm mm R⟩ ∧
    coefIndex mm 0 0 = 0 ∧
    (sphereCoefs lm mm R).getD 0 0 = R * Real.sqrt (4 * Real.pi) ∧
    (∀ i, i ≠ 0 → (sphereCoefs lm mm R).getD i 0 = 0) ∧
    Strahlkorper.average_radius ⟨lm, mm, c, sphereCoefs lm mm R⟩ = R ∧
    ∀ (e : SpherepackEngine) (θ φ : ℝ),
      Strahlkorper.radius e ⟨lm, mm, c, sphereCoefs lm mm R⟩ θ φ = R := by
  refine ⟨by simp [sphereStrahlkorper, hres], coefIndex_zero mm, ?_, ?_, ?_,
    fun e θ φ => sphere_radius_eval e lm mm R c θ φ⟩
  · rw [sphereCoefs_getD]; simp
  · intro i hi; rw [sphereCoefs_getD]; simp [hi]
  · unfold Strahlkorper.average_radius
    rw [show Strahlkorper.coefAt ⟨lm, mm, c, sphereCoefs lm mm R⟩ 0 0 =
        R * Real.sqrt (4 * Real.pi) from by
      rw [sphere_coefAt, if_pos (coefIndex_zero mm)]]
    rw [mul_div_assoc, div_self sqrt_four_pi_ne_zero, mul_one]

theorem sphere_constructor_exact_witness :
    Strahlkorper.average_radius ⟨4, 4, (0, 0, 0), sphereCoefs 4 4 2⟩ = 2 :=
  (sphere_constructor_exact 4 4 2 (0, 0, 0) (by decide) (by norm_num)).2.2.2.2.1

/-- C2: for every well-formed surface, average_radius() returns exactly the
packed (l,m)=(0,0) coefficient of the stored vector divided by √(4π), and
depends on no other coefficient slot. -/
theorem average_radius_monopole (s : Strahlkorper)
    (_hwf : s.m_max ≤ s.l_max ∧ s.coefs.length = physical_size s.l_max s.m_max) :
    Strahlkorper.average_radius s =
      s.coefs.getD (coefIndex s.m_max 0 0) 0 / Real.sqrt (4 * Real.pi) ∧
    coefIndex s.m_max 0 0 = 0 ∧
    ∀ t : Strahlkorper,
      t.coefs.getD (coefIndex t.m_max 0 0) 0 = s.coefs.getD (coefIndex s.m_max 0 0) 0 →
        Strahlkorper.average_radius t = Strahlkorper.average_radius s := by
  refine ⟨rfl, coefIndex_zero _, ?_⟩
  intro t ht
  unfold Strahlkorper.average_radius Strahlkorper.coefAt
  rw [ht]

theorem average_radius_monopole_witness :
    Strahlkorper.average_radius defaultStrahlkorper =
      defaultStrahlkorper.coefs.getD (coefIndex defaultStrahlkorper.m_max 0 0) 0 /
        Real.sqrt (4 * Real.pi) :=
  (average_radius_monopole defaultStrahlkorper
    ⟨by decide, by simp [defaultStrahlkorper]⟩).1

/-- C4: for every surface s and every resolution (L, M) with L ≥ s.l_max and
M ≥ s.m_max, prolonging s to (L, M) and restricting back to
(s.l_max, s.m_max) reproduces exactly the original coefficient vector (and
in fact the original surface), the prolonged surface evaluates to the same
function at every angle, and the center is copied unchanged by each
resample. -/
theorem prolong_restrict_identity (lm mm : ℕ) (s : Strahlkorper)
    (_hwf : s.m_max ≤ s.l_max)
    (hlen : s.coefs.length = physical_size s.l_max s.m_max)
    (hL : s.l_max ≤ lm) (hM : s.m_max ≤ mm) :
    (resampleSurface lm mm s).center = s.center ∧
    (resampleSurface s.l_max s.m_max (resampleSurface lm mm s)).center = s.center ∧
    (∀ (e : SpherepackEngine) (θ φ : ℝ),
      (resampleSurface lm mm s).radius e θ φ = s.radius e θ φ) ∧
    (resampleSurface s.l_max s.m_max (resampleSurface lm mm s)).coefs = s.coefs ∧
    resampleSurface s.l_max s.m_max (resampleSurface lm mm s) = s :=
  ⟨rfl, rfl, fun e θ φ => resample_radius_eq e lm mm s hL hM θ φ,
    by rw [resample_roundtrip lm mm s hlen hL hM],
    resample_roundtrip lm mm s hlen hL hM⟩

theorem prolong_restrict_identity_witness :
    resampleSurface 2 2 (resampleSurface 4 3 defaultStrahlkorper) = defaultStrahlkorper :=
  (prolong_restrict_identity 4 3 defaultStrahlkorper (by decide)
    (by simp [defaultStrahlkorper]) (by decide) (by decide)).2.2.2.2

/-- C6: two surfaces compare equal under operator== exactly when l_max,
m_max, center, and the coefficient vectors are all equal (bit-for-bit in the
embedding: real-number equality), which for this data model is exactly
structure equality; any one differing field makes them unequal. -/
theorem strahlkorper_eq_iff (a b : Strahlkorper) :
    (strahlkorperEq a b ↔
      a.l_max = b.l_max ∧ a.m_max = b.m_max ∧ a.center = b.center ∧ a.coefs = b.coefs) ∧
    (strahlkorperEq a b ↔ a = b) := by
  refine ⟨Iff.rfl, ?_, ?_⟩
  · exact fun h => Strahlkorper.ext_fields a b h.1 h.2.1 h.2.2.1 h.2.2.2
  · intro h
    subst h
    exact ⟨rfl, rfl, rfl, rfl⟩

/-- C7: for every resolution with m_max > l_max, the sphere constructor
fails fast with InvalidResolution and produces no surface. -/
theorem sphere_invalid_resolution (lm mm : ℕ) (R : ℝ) (c : ℝ × ℝ × ℝ)
    (h : lm < mm) :
    sphereStrahlkorper lm mm R c = .error .InvalidResolution := by
  unfold sphereStrahlkorper
  rw [if_neg (by omega)]

theorem sphere_invalid_resolution_witness :
    sphereStrahlkorper 2 3 1 (0, 0, 0) = .error .InvalidResolution :=
  sphere_invalid_resolution 2 3 1 (0, 0, 0) (by decide)

/-- C9: the only mutation path, overwriting a coefficient in place through
the mutable coefficients() accessor, leaves l_max, m_max, and center
unchanged; it changes exactly the coefficient vector. -/
theorem mutation_frame_condition (s : Strahlkorper) (i : ℕ) (v : ℝ) :
    (writeCoef s i v).l_max = s.l_max ∧
    (writeCoef s i v).m_max = s.m_max ∧
    (writeCoef s i v).center = s.center ∧
    (writeCoef s i v).coefs = s.coefs.set i v :=
  ⟨rfl, rfl, rfl, rfl⟩

/-- C10: a default-constructed surface has l_max = 2, m_max = 2, center at
the origin, and a coefficient vector of length physical_size(2,2) with every
entry 0, hence average radius zero, and it satisfies the length and
m_max ≤ l_max invariants. -/
theorem default_strahlkorper_spec :
    defaultStrahlkorper.l_max = 2 ∧
    defaultStrahlkorper.m_max = 2 ∧
    defaultStrahlkorper.center = (0, 0, 0) ∧
    defaultStrahlkorper.coefs.length = physical_size 2 2 ∧
    (∀ i, defaultStrahlkorper.coefs.getD i 0 = 0) ∧
    Strahlkorper.average_radius defaultStrahlkorper = 0 ∧
    defaultStrahlkorper.m_max ≤ defaultStrahlkorper.l_max := by
  refine ⟨rfl, rfl, rfl, by simp [defaultStrahlkorper], ?_, ?_, by decide⟩
  · intro i
    exact getD_replicate_zero _ i
  · unfold Strahlkorper.average_radius Strahlkorper.coefAt
    rw [show defaultStrahlkorper.coefs.getD (coefIndex defaultStrahlkorper.m_max 0 0) 0 = 0
      from getD_replicate_zero _ _]
    exact zero_div _

/-- C3: point_is_contained computes the displacement from the center, its
norm r, the angles acos(d_z/r) and atan2(d_y,d_x), and holds exactly when
r = 0 (the basepoint itself, defined as contained) or r ≤ radius(θ,φ); for a
sphere surface of radius R > 0 centered at c it holds iff |x - c| ≤ R. -/
theorem point_containment_sphere (e : SpherepackEngine) (lm mm : ℕ) (R : ℝ)
    (c x : ℝ × ℝ × ℝ) (_hres : mm ≤ lm) (hR : 0 < R) :
    (∀ s : Strahlkorper, s.point_is_contained e s.center) ∧
    (∀ s : Strahlkorper, s.point_is_contained e x ↔
      (Real.sqrt ((x.1 - s.center.1) ^ 2 + (x.2.1 - s.center.2.1) ^ 2 +
          (x.2.2 - s.center.2.2) ^ 2) = 0 ∨
        Real.sqrt ((x.1 - s.center.1) ^ 2 + (x.2.1 - s.center.2.1) ^ 2 +
            (x.2.2 - s.center.2.2) ^ 2) ≤
          s.radius e
            (Real.arccos ((x.2.2 - s.center.2.2) /
              Real.sqrt ((x.1 - s.center.1) ^ 2 + (x.2.1 - s.center.2.1) ^ 2 +
                (x.2.2 - s.center.2.2) ^ 2)))
            (Complex.arg ⟨x.1 - s.center.1, x.2.1 - s.center.2.1⟩))) ∧
    (Strahlkorper.point_is_contained e ⟨lm, mm, c, sphereCoefs lm mm R⟩ x ↔
      Real.sqrt ((x.1 - c.1) ^ 2 + (x.2.1 - c.2.1) ^ 2 + (x.2.2 - c.2.2) ^ 2) ≤ R) := by
  refine ⟨?_, fun s => Iff.rfl, ?_⟩
  · intro s
    show Real.sqrt ((s.center.1 - s.center.1) ^ 2 + (s.center.2.1 - s.center.2.1) ^ 2 +
        (s.center.2.2 - s.center.2.2) ^ 2) = 0 ∨ _
    left
    simp
  · have hr : ∀ θ φ, Strahlkorper.radius e ⟨lm, mm, c, sphereCoefs lm mm R⟩ θ φ = R :=
      sphere_radius_eval e lm mm R c
    show (Real.sqrt ((x.1 - c.1) ^ 2 + (x.2.1 - c.2.1) ^ 2 + (x.2.2 - c.2.2) ^ 2) = 0 ∨
        Real.sqrt ((x.1 - c.1) ^ 2 + (x.2.1 - c.2.1) ^ 2 + (x.2.2 - c.2.2) ^ 2) ≤
          Strahlkorper.radius e ⟨lm, mm, c, sphereCoefs lm mm R⟩ _ _) ↔ _
    rw [hr]
    constructor
    · rintro (h0 | hle)
      · rw [h0]; exact hR.le
      · exact hle
    · exact Or.inr

theorem point_containment_sphere_witness :
    Strahlkorper.point_is_contained trivEngine ⟨4, 4, (0, 0, 0), sphereCoefs 4 4 2⟩ (1, 1, 1) ↔
      Real.sqrt (((1 : ℝ) - 0) ^ 2 + ((1 : ℝ) - 0) ^ 2 + ((1 : ℝ) - 0) ^ 2) ≤ 2 :=
  (point_containment_sphere trivEngine 4 4 2 (0, 0, 0) (1, 1, 1)
    (by decide) (by norm_num)).2.2

/-- C5 counterexample: the single-slot round-trip law fails as stated. The
packing formula stores only one real number per slot, so for the slot
(l,m)=(1,1) the two admissible coefficient values i and 2i (both consistent
with the reality constraint, which leaves Re F unconstrained only to the
paired slot) pack to the same stored value 0, hence no unpack function can
recover both. -/
theorem pack_not_single_slot_invertible :
    pack 1 1 Complex.I = pack 1 1 (2 * Complex.I) ∧
    Complex.I ≠ 2 * Complex.I ∧
    Complex.I.re = 0 ∧ (2 * Complex.I).re = 0 ∧
    ¬∃ u : ℕ → ℤ → ℝ → ℂ,
      u 1 1 (pack 1 1 Complex.I) = Complex.I ∧
      u 1 1 (pack 1 1 (2 * Complex.I)) = 2 * Complex.I := by
  have hpack : pack 1 1 Complex.I = pack 1 1 (2 * Complex.I) := by
    unfold pack
    norm_num
  have hne : Complex.I ≠ 2 * Complex.I := by
    intro h
    have him := congrArg Complex.im h
    simp at him
  refine ⟨hpack, hne, by simp, by simp, ?_⟩
  rintro ⟨u, h1, h2⟩
  rw [hpack] at h1
  exact hne (h1.symm.trans h2)

/-- C5 amended: the packing codec is invertible in the two forms the reality
constraint supports. For an m = 0 slot the constraint forces the coefficient
real and the single stored value recovers it; for m > 0 the complex
coefficient F^lm is recovered exactly from the pair of stored values at the
slots (l,m) and (l,-m), where the (l,-m) value packs the reality partner
(-1)^m conj(F^lm). -/
theorem packing_roundtrip_reality (l : ℕ) (m : ℕ) (v : ℂ) :
    (v.im = 0 → unpack0 (pack l 0 v) = v) ∧
    (0 < m →
      unpackPair m (pack l (m : ℤ) v, pack l (-(m : ℤ)) (realityPartner m v)) = v) := by
  have hs : Real.sqrt (2 / Real.pi) ≠ 0 := by
    rw [Real.sqrt_ne_zero']
    positivity
  have hsq : (-1 : ℝ) ^ m * (-1 : ℝ) ^ m = 1 := by
    rw [← pow_add, ← two_mul, pow_mul]
    norm_num
  constructor
  · intro him
    unfold pack unpack0
    rw [if_pos le_rfl, zpow_zero, one_mul, mul_div_cancel_left₀ _ hs]
    apply Complex.ext
    · simp
    · simp [him]
  · intro hm
    have hniz : ¬(0 : ℤ) ≤ -(m : ℤ) := by omega
    have hpos : (0 : ℤ) ≤ (m : ℤ) := by omega
    unfold pack unpackPair realityPartner
    rw [if_pos hpos, if_neg hniz]
    have hre : ((-1 : ℂ) ^ m * (starRingEnd ℂ) v).im = (-1 : ℝ) ^ m * -v.im := by
      have hcast : ((-1 : ℂ) ^ m) = (((-1 : ℝ) ^ m : ℝ) : ℂ) := by
        push_cast
        ring
      rw [hcast, Complex.mul_im]
      simp only [Complex.ofReal_re, Complex.ofReal_im, Complex.conj_im, Complex.conj_re,
        zero_mul, add_zero]
    rw [hre]
    have hzc : (-1 : ℝ) ^ (-(m : ℤ)) = (-1 : ℝ) ^ m := by
      rw [zpow_neg, ← inv_zpow, inv_neg, inv_one, zpow_natCast]
    have hzc2 : (-1 : ℝ) ^ ((m : ℕ) : ℤ) = (-1 : ℝ) ^ m := zpow_natCast (-1 : ℝ) m
    rw [hzc, hzc2]
    apply Complex.ext
    · show (-1 : ℝ) ^ m * ((-1 : ℝ) ^ m * Real.sqrt (2 / Real.pi) * v.re) /
        Real.sqrt (2 / Real.pi) = v.re
      rw [div_eq_iff hs]
      calc (-1 : ℝ) ^ m * ((-1 : ℝ) ^ m * Real.sqrt (2 / Real.pi) * v.re)
          = ((-1 : ℝ) ^ m * (-1 : ℝ) ^ m) * (Real.sqrt (2 / Real.pi) * v.re) := by ring
        _ = Real.sqrt (2 / Real.pi) * v.re := by rw [hsq, one_mul]
        _ = v.re * Real.sqrt (2 / Real.pi) := by ring
    · show -((-1 : ℝ) ^ m * Real.sqrt (2 / Real.pi) * ((-1 : ℝ) ^ m * -v.im)) /
        Real.sqrt (2 / Real.pi) = v.im
      rw [div_eq_iff hs]
      calc -((-1 : ℝ) ^ m * Real.sqrt (2 / Real.pi) * ((-1 : ℝ) ^ m * -v.im))
          = ((-1 : ℝ) ^ m * (-1 : ℝ) ^ m) * (Real.sqrt (2 / Real.pi) * v.im) := by ring
        _ = Real.sqrt (2 / Real.pi) * v.im := by rw [hsq, one_mul]
        _ = v.im * Real.sqrt (2 / Real.pi) := by ring

theorem packing_roundtrip_reality_witness :
    unpackPair 1 (pack 1 (1 : ℤ) ⟨3, 4⟩, pack 1 (-(1 : ℤ)) (realityPartner 1 ⟨3, 4⟩)) =
      (⟨3, 4⟩ : ℂ) ∧
    unpack0 (pack 1 0 ⟨5, 0⟩) = (⟨5, 0⟩ : ℂ) :=
  ⟨(packing_roundtrip_reality 1 1 ⟨3, 4⟩).2 (by decide),
   (packing_roundtrip_reality 1 1 ⟨5, 0⟩).1 rfl⟩

/-- C8: every construction mode (sphere, from-samples, resample,
coefficient-substitution, default) yields a coefficient vector of length
exactly physical_size(l_max, m_max), and in-place coefficient overwriting,
the one exposed mutator, preserves that length. -/
theorem coefficient_length_invariant (e : SpherepackEngine) :
    (∀ lm mm R c s, sphereStrahlkorper lm mm R c = .ok s →
      s.coefs.length = physical_size s.l_max s.m_max) ∧
    (∀ lm mm samples c s, fromSamples e lm mm samples c = .ok s →
      s.coefs.length = physical_size s.l_max s.m_max) ∧
    (∀ lm mm t, (resampleSurface lm mm t).coefs.length =
      physical_size (resampleSurface lm mm t).l_max (resampleSurface lm mm t).m_max) ∧
    (∀ cs t s, substituteCoefs cs t = .ok s →
      s.coefs.length = physical_size s.l_max s.m_max) ∧
    defaultStrahlkorper.coefs.length =
      physical_size defaultStrahlkorper.l_max defaultStrahlkorper.m_max ∧
    (∀ s i v, (writeCoef s i v).coefs.length = s.coefs.length) := by
  refine ⟨?_, ?_, ?_, ?_, by simp [defaultStrahlkorper, physical_size], ?_⟩
  · intro lm mm R c s h
    unfold sphereStrahlkorper at h
    split at h
    · injection h with h
      subst h
      exact sphereCoefs_length lm mm R
    · simp at h
  · intro lm mm samples c s h
    unfold fromSamples at h
    split at h
    · injection h with h
      subst h
      exact e.forward_size lm mm samples
    · simp at h
  · intro lm mm t
    exact resample_coefs_length lm mm t
  · intro cs t s h
    unfold substituteCoefs at h
    split at h
    · injection h with h
      subst h
      assumption
    · simp at h
  · intro s i v
    simp [writeCoef]

theorem coefficient_length_invariant_witness :
    (⟨2, 2, (0, 0, 0), sphereCoefs 2 2 1⟩ : Strahlkorper).coefs.length =
      physical_size 2 2 :=
  (coefficient_length_invariant trivEngine).1 2 2 1 (0, 0, 0)
    ⟨2, 2, (0, 0, 0), sphereCoefs 2 2 1⟩ (by simp [sphereStrahlkorper])

end Spectre
